import Mathlib

/-!
Verification of the HeyHost live-quiz session core against its source.

The development shallowly embeds the relevant TypeScript code:
pure functions become Lean functions over `ℚ`/`ℤ`/`String`, the
Supabase rows become structures, and each store mutation becomes an
explicit state-passing function.  `Math.round` is embedded as
`jsRound`, JavaScript's round-half-up on rationals.
-/

namespace HeyHost

/-- JavaScript `Math.round`: round half toward positive infinity. -/
def jsRound (q : ℚ) : ℤ := ⌊q + 1/2⌋

/-- Embeds `BASE_POINTS` from `src/lib/scoring.ts`. -/
def BASE_POINTS : ℤ := 1000

/-- Embeds `MAX_SPEED_BONUS` from `src/lib/scoring.ts`. -/
def MAX_SPEED_BONUS : ℚ := 500

/-- Embeds `calculatePoints` from `src/lib/scoring.ts`: 0 when incorrect,
otherwise `BASE_POINTS` plus, when the speed bonus is enabled,
`Math.round(MAX_SPEED_BONUS * Math.max(0, 1 - timeMs / (timerSeconds * 1000)))`. -/
def calculatePoints (isCorrect : Bool) (timeMs : ℚ) (timerSeconds : ℚ)
    (speedBonusEnabled : Bool) : ℤ :=
  if !isCorrect then 0
  else
    if speedBonusEnabled then
      let totalMs := timerSeconds * 1000
      let fraction := max 0 (1 - timeMs / totalMs)
      BASE_POINTS + jsRound (MAX_SPEED_BONUS * fraction)
    else BASE_POINTS

/-- Embeds the inline point computation of `handleAnswer` in the player
client page (`let points = 0; if (isCorrect) { points = 1000;
if (session.speed_bonus) { ... points += Math.round(500 * fraction) } }`). -/
def handleAnswerPoints (speed_bonus : Bool) (timer_seconds : ℚ) (timeMs : ℚ)
    (isCorrect : Bool) : ℤ :=
  if isCorrect then
    if speed_bonus then
      let totalMs := timer_seconds * 1000
      let fraction := max 0 (1 - timeMs / totalMs)
      1000 + jsRound (500 * fraction)
    else 1000
  else 0

/-- Embeds a `session_question_state` row (types in `src/lib/types.ts`);
times are absolute wall-clock milliseconds. -/
structure QState where
  started_at : Option ℤ
  ends_at : Option ℤ
  is_paused : Bool
  paused_remaining_ms : Option ℤ
  is_locked : Bool
  show_results : Bool
  show_leaderboard : Bool
deriving DecidableEq

/-- Embeds the row inserted by `startGame` / `nextQuestion` in the host page:
`started_at = now`, `ends_at = now + timerSeconds * 1000`, all flags false
(`show_leaderboard` takes the store default `false`). -/
def initQState (now timerSeconds : ℤ) : QState :=
  { started_at := some now
    ends_at := some (now + timerSeconds * 1000)
    is_paused := false
    paused_remaining_ms := none
    is_locked := false
    show_results := false
    show_leaderboard := false }

/-- Embeds the pause branch of `pauseResume` in the host page: stores
`remaining = max(0, ends_at - now)` and sets the paused flag.  The source
update touches only these two columns; `getD 0` mirrors JavaScript's
`new Date(null)` coercion for the non-null assertion on `ends_at`. -/
def pauseQ (now : ℤ) (s : QState) : QState :=
  { s with is_paused := true
           paused_remaining_ms := some (max 0 (s.ends_at.getD 0 - now)) }

/-- Embeds the resume branch of `pauseResume` in the host page:
`remainingMs = paused_remaining_ms || 0`, new `ends_at = now + remainingMs`,
new `started_at = now - (timerSeconds * 1000 - remainingMs)`. -/
def resumeQ (timerSeconds now : ℤ) (s : QState) : QState :=
  let remainingMs := s.paused_remaining_ms.getD 0
  { s with is_paused := false
           paused_remaining_ms := none
           started_at := some (now - (timerSeconds * 1000 - remainingMs))
           ends_at := some (now + remainingMs) }

/-- Embeds `pauseResume` in the host page: resume when paused, else pause. -/
def pauseResume (timerSeconds now : ℤ) (s : QState) : QState :=
  if s.is_paused then resumeQ timerSeconds now s else pauseQ now s

/-- Embeds `endQuestionEarly` in the host page: one update setting
`is_locked` and `show_results` true together. -/
def endQuestionEarly (s : QState) : QState :=
  { s with is_locked := true, show_results := true }

/-- Embeds `showLeaderboard` in the host page. -/
def showLeaderboard (s : QState) : QState :=
  { s with show_leaderboard := true }

/-- One host write to an existing `session_question_state` row; these are the
only writers of the row in the source (`pauseResume`, `endQuestionEarly`,
`showLeaderboard` in the host page). -/
inductive QStep (timerSeconds : ℤ) : QState → QState → Prop
  | pause_resume (now : ℤ) (s : QState) : QStep timerSeconds s (pauseResume timerSeconds now s)
  | lock (s : QState) : QStep timerSeconds s (endQuestionEarly s)
  | leaderboard (s : QState) : QStep timerSeconds s (showLeaderboard s)

/-- States of one question row reachable from its creating insert through
host writes. -/
inductive QReachable (timerSeconds : ℤ) : QState → Prop
  | init (now : ℤ) : QReachable timerSeconds (initQState now timerSeconds)
  | step {s s' : QState} : QReachable timerSeconds s → QStep timerSeconds s s' →
      QReachable timerSeconds s'

/-- Session status from `src/lib/types.ts`. -/
inductive SessionStatus
  | lobby
  | playing
  | finished
deriving DecidableEq

/-- The slice of a `sessions` row the verified operations read. -/
structure Session where
  id : ℕ
  code : String
  status : SessionStatus
deriving DecidableEq

/-- Embeds the collision query of `handleStartSession`:
`.eq("code", code).neq("status", "finished")` finds a non-finished session
with the candidate code. -/
def codeTaken (sessions : List Session) (code : String) : Bool :=
  sessions.any fun s => s.code == code && !(s.status == SessionStatus.finished)

/-- Embeds the retry loop of `handleStartSession`: with `rem` retries left,
keep the current candidate if it is free, else take the next candidate from
the stream and retry.  `gen` abstracts `generateGameCode`'s randomness as a
stream of candidates; `nextIdx` is the index of the next unused candidate. -/
def allocLoop (gen : ℕ → String) (sessions : List Session) :
    ℕ → ℕ → String → String
  | _, 0, code => code
  | nextIdx, rem + 1, code =>
    if codeTaken sessions code then
      allocLoop gen sessions (nextIdx + 1) rem (gen nextIdx)
    else code

/-- Embeds the code allocation of `handleStartSession`: start from the first
candidate and run the collision-check loop with the fixed bound of 5. -/
def allocateCode (gen : ℕ → String) (sessions : List Session) : String :=
  allocLoop gen sessions 1 5 (gen 0)

/-- Embeds JavaScript `String.prototype.toLowerCase` at character level, as
used on player display names in `handleJoin`. -/
def lowerStr (s : String) : String := ⟨s.data.map Char.toLower⟩

/-- Embeds JavaScript `String.prototype.toUpperCase` at character level, as
used on the entered code in `findSession`. -/
def upperStr (s : String) : String := ⟨s.data.map Char.toUpper⟩

/-- Embeds the counter loop of `handleJoin`: starting from `c`, return the
first counter whose suffixed name is not among the (lowercased) existing
names.  The source loop is unbounded; `fuel` is called with enough budget
that a free counter is always found within it. -/
def findCounter (names : List String) (base : String) : ℕ → ℕ → ℕ
  | 0, c => c
  | fuel + 1, c =>
    if base ++ Nat.repr c ∈ names then findCounter names base fuel (c + 1) else c

/-- Embeds the name-collision resolution of `handleJoin`: lowercase the
existing names; if the requested name (lowercased) collides, append the first
counter, starting at 2, whose lowercased suffixed form is free; the suffix is
appended to the original-cased requested name. -/
def assignName (existingNames : List String) (requested : String) : String :=
  let names := existingNames.map lowerStr
  if lowerStr requested ∈ names then
    requested ++ Nat.repr (findCounter names (lowerStr requested) (names.length + 1) 2)
  else requested

/-- Left inverse of `Nat.digitChar` on decimal digits, used to prove decimal
representations injective. -/
def charToDigit (c : Char) : ℕ :=
  if c = '1' then 1 else if c = '2' then 2 else if c = '3' then 3 else
  if c = '4' then 4 else if c = '5' then 5 else if c = '6' then 6 else
  if c = '7' then 7 else if c = '8' then 8 else if c = '9' then 9 else 0

/-- A `session_players` row (types in `src/lib/types.ts`). -/
structure Player where
  id : ℕ
  session_id : ℕ
  display_name : String
  avatar_color : String
  is_removed : Bool
deriving DecidableEq

/-- The store state the join flow reads and writes. -/
structure Store where
  sessions : List Session
  players : List Player
deriving DecidableEq

/-- Embeds `findSession` in the player page: look the session up by the
uppercased entered code, excluding finished sessions
(`.eq("code", code.toUpperCase()).neq("status", "finished")`). -/
def findSession (st : Store) (rawCode : String) : Option Session :=
  st.sessions.find? fun s =>
    s.code == upperStr rawCode && !(s.status == SessionStatus.finished)

/-- Embeds the "Anyone can join session" row-level-security policy on
`session_players` in `supabase/schema.sql`: an insert passes its check only
when a `sessions` row whose `id` equals the inserted `session_id` has
status `lobby` (`exists (select 1 from sessions where sessions.id =
session_players.session_id and sessions.status = 'lobby')`).  The
client-side `handleJoin` performs no status check of its own; this policy is
what rejects joins outside the lobby. -/
def joinAllowed (st : Store) (sid : ℕ) : Bool :=
  st.sessions.any fun s => s.id == sid && s.status == SessionStatus.lobby

/-- Embeds `handleJoin` in the player page, composed with the store's
`joinAllowed` insert policy: resolve the display name against the session's
non-removed players and insert the new player, or reject with no change. -/
def handleJoin (st : Store) (s : Session) (requestedName color : String)
    (newId : ℕ) : Option (Store × Player) :=
  if joinAllowed st s.id then
    let existing := (st.players.filter fun p =>
      p.session_id == s.id && !p.is_removed).map Player.display_name
    let finalName := assignName existing requestedName
    let p : Player := ⟨newId, s.id, finalName, color, false⟩
    some ({ st with players := st.players ++ [p] }, p)
  else none

/-- Embeds the join flow of the player page: find the session by code, then
join it. -/
def joinByCode (st : Store) (rawCode requestedName color : String)
    (newId : ℕ) : Option (Store × Player) :=
  match findSession st rawCode with
  | none => none
  | some s => handleJoin st s requestedName color newId

/-- A `session_answers` row (types in `src/lib/types.ts`). -/
structure Answer where
  session_id : ℕ
  player_id : ℕ
  question_id : ℕ
  choice_id : ℕ
  is_correct : Bool
  time_ms : ℚ
  points_awarded : ℤ
deriving DecidableEq

/-- Two answers agree on the (session, player, question) triple. -/
def sameTriple (a b : Answer) : Bool :=
  a.session_id == b.session_id && a.player_id == b.player_id &&
    a.question_id == b.question_id

/-- Embeds inserting into `session_answers` under the
`unique(session_id, player_id, question_id)` constraint declared on the
table in `supabase/schema.sql`: an insert whose triple already exists
violates the constraint, so it is rejected and leaves the table unchanged. -/
def insertAnswer (answers : List Answer) (a : Answer) : List Answer :=
  if answers.any (fun b => sameTriple b a) then answers else answers ++ [a]

/-- Embeds the `update_player_score()` trigger in `supabase/schema.sql`,
which runs after each `session_answers` insert and sets the player's stored
score to `coalesce(sum(points_awarded), 0)` over that player's answers in
the session — the score is recomputed from the answer log, not
incremented. -/
def playerScore (answers : List Answer) (sid pid : ℕ) : ℤ :=
  ((answers.filter fun b => b.session_id == sid && b.player_id == pid).map
    Answer.points_awarded).sum

end HeyHost

namespace HeyHost

/-- C1: the scoring function awards 0 when incorrect, and when correct awards
the fixed base 1000 plus, with speed bonus enabled,
`round(500 * max(0, 1 - elapsedMs / (timerSeconds * 1000)))`; in particular a
correct answer at 0 ms with a 30 s timer and bonus enabled yields 1500 points,
and the same at 30000 ms yields 1000 points. -/
theorem calculatePoints_spec :
    (∀ (t T : ℚ) (b : Bool), calculatePoints false t T b = 0) ∧
    (∀ t T : ℚ, calculatePoints true t T false = 1000) ∧
    (∀ t T : ℚ, calculatePoints true t T true =
      1000 + jsRound (500 * max 0 (1 - t / (T * 1000)))) ∧
    calculatePoints true 0 30 true = 1500 ∧
    calculatePoints true 30000 30 true = 1000 := by
  refine ⟨fun t T b => rfl, fun t T => rfl, fun t T => rfl, ?_, ?_⟩
  · show BASE_POINTS + jsRound (MAX_SPEED_BONUS * max 0 (1 - 0 / (30 * 1000))) = 1500
    norm_num [jsRound, BASE_POINTS, MAX_SPEED_BONUS]
  · show BASE_POINTS + jsRound (MAX_SPEED_BONUS * max 0 (1 - 30000 / (30 * 1000))) = 1000
    norm_num [jsRound, BASE_POINTS, MAX_SPEED_BONUS]

/-- C9 counterexample: with a negative elapsed time (possible under client
clock skew, and a legal input of the function), the speed bonus exceeds the
500 cap: a correct answer at −30000 ms with a 30 s timer and bonus enabled
yields 2000 points, more than 1500. -/
theorem calculatePoints_exceeds_cap :
    calculatePoints true (-30000) 30 true = 2000 ∧
    1500 < calculatePoints true (-30000) 30 true := by
  have h : calculatePoints true (-30000) 30 true = 2000 := by
    show BASE_POINTS + jsRound (MAX_SPEED_BONUS * max 0 (1 - -30000 / (30 * 1000))) = 2000
    norm_num [jsRound, BASE_POINTS, MAX_SPEED_BONUS]
  exact ⟨h, by rw [h]; norm_num⟩

/-- C9 (amended): for every nonnegative elapsed time and positive timer
duration, the awarded points are at most 1500 (the speed bonus never exceeds
the 500 cap), for every correctness value and bonus flag. -/
theorem calculatePoints_le_1500 (isCorrect : Bool) (timeMs timerSeconds : ℚ)
    (speedBonusEnabled : Bool) (ht : 0 ≤ timeMs) (hT : 0 < timerSeconds) :
    calculatePoints isCorrect timeMs timerSeconds speedBonusEnabled ≤ 1500 := by
  cases isCorrect with
  | false => simp [calculatePoints]
  | true =>
    cases speedBonusEnabled with
    | false => simp [calculatePoints, BASE_POINTS]
    | true =>
      show BASE_POINTS +
          jsRound (MAX_SPEED_BONUS * max 0 (1 - timeMs / (timerSeconds * 1000))) ≤ 1500
      have hfrac : max 0 (1 - timeMs / (timerSeconds * 1000)) ≤ 1 := by
        have : 0 ≤ timeMs / (timerSeconds * 1000) :=
          div_nonneg ht (by positivity)
        simp only [max_le_iff]
        constructor <;> linarith
      have hle : MAX_SPEED_BONUS * max 0 (1 - timeMs / (timerSeconds * 1000)) ≤ 500 := by
        rw [MAX_SPEED_BONUS]
        nlinarith [hfrac]
      have hfloor : jsRound (MAX_SPEED_BONUS * max 0 (1 - timeMs / (timerSeconds * 1000))) ≤
          jsRound 500 := by
        unfold jsRound
        exact Int.floor_le_floor (by linarith)
      have h500 : jsRound 500 = 500 := by norm_num [jsRound]
      rw [BASE_POINTS]
      omega

/-- C9 witness. -/
theorem calculatePoints_le_1500_witness :
    (0 : ℚ) ≤ 0 ∧ (0 : ℚ) < 30 ∧ calculatePoints true 0 30 true ≤ 1500 :=
  ⟨le_refl 0, by norm_num,
    calculatePoints_le_1500 true 0 30 true (le_refl 0) (by norm_num)⟩

/-- C10: the inline point computation in the player client's answer-submission
path equals the standalone scoring function `calculatePoints` on every input. -/
theorem handleAnswerPoints_eq_calculatePoints :
    ∀ (isCorrect speed_bonus : Bool) (timeMs timer_seconds : ℚ),
      handleAnswerPoints speed_bonus timer_seconds timeMs isCorrect =
        calculatePoints isCorrect timeMs timer_seconds speed_bonus := by
  intro isCorrect speed_bonus timeMs timer_seconds
  cases isCorrect <;> cases speed_bonus <;> rfl

/-- C4 counterexample: pausing an active question (created at 0 ms with a
30 s timer, paused at 5000 ms) leaves `ends_at = some 30000`, not null: the
source update sets only `is_paused` and `paused_remaining_ms` and does not
clear the scheduled end. -/
theorem pause_leaves_ends_at :
    (pauseResume 30 5000 (initQState 0 30)).is_paused = true ∧
    (pauseResume 30 5000 (initQState 0 30)).ends_at = some 30000 ∧
    (pauseResume 30 5000 (initQState 0 30)).ends_at ≠ none := by
  refine ⟨rfl, by decide, by decide⟩

/-- C4 (amended): for every active (unpaused) question-phase state with a
scheduled end `e`, pause stores `remaining = max(0, e - now)` as the paused
remaining-milliseconds snapshot and sets the paused flag; every other column,
including `ends_at`, is left unchanged (the scheduled end is not cleared). -/
theorem pause_stores_remaining (timerSeconds now e : ℤ) (s : QState)
    (hp : s.is_paused = false) (he : s.ends_at = some e) :
    pauseResume timerSeconds now s =
      { s with is_paused := true, paused_remaining_ms := some (max 0 (e - now)) } := by
  simp [pauseResume, hp, pauseQ, he]

/-- C4 witness. -/
theorem pause_stores_remaining_witness :
    pauseResume 30 5000 (initQState 0 30) =
      { initQState 0 30 with
          is_paused := true, paused_remaining_ms := some (max 0 (30000 - 5000)) } :=
  pause_stores_remaining 30 5000 30000 (initQState 0 30) rfl rfl

/-- C5: resume on a paused state with remaining snapshot `r` sets the new
scheduled end to `now + r` and the new start to `now - (timerSeconds*1000 - r)`;
and pause immediately followed by resume leaves the scheduled end (hence the
remaining time) unchanged. -/
theorem resume_spec :
    (∀ (timerSeconds now r : ℤ) (s : QState), s.is_paused = true →
        s.paused_remaining_ms = some r →
        pauseResume timerSeconds now s =
          { s with is_paused := false, paused_remaining_ms := none,
                   started_at := some (now - (timerSeconds * 1000 - r)),
                   ends_at := some (now + r) }) ∧
    (∀ (timerSeconds now e : ℤ) (s : QState), s.is_paused = false →
        s.ends_at = some e → now ≤ e →
        (pauseResume timerSeconds now (pauseResume timerSeconds now s)).ends_at =
          some e) := by
  constructor
  · intro timerSeconds now r s hp hr
    simp [pauseResume, hp, resumeQ, hr]
  · intro timerSeconds now e s hp he hle
    have h1 : pauseResume timerSeconds now s = pauseQ now s := by
      simp [pauseResume, hp]
    rw [h1]
    have h2 : (pauseQ now s).is_paused = true := rfl
    simp [pauseResume, h2, resumeQ, pauseQ, he]
    omega

/-- C5 witness. -/
theorem resume_spec_witness :
    pauseResume 30 40000 (pauseQ 5000 (initQState 0 30)) =
      { pauseQ 5000 (initQState 0 30) with
          is_paused := false, paused_remaining_ms := none,
          started_at := some (40000 - (30 * 1000 - 25000)),
          ends_at := some (40000 + 25000) } ∧
    (pauseResume 30 5000 (pauseResume 30 5000 (initQState 0 30))).ends_at =
      some 30000 :=
  ⟨resume_spec.1 30 40000 25000 (pauseQ 5000 (initQState 0 30)) rfl (by decide),
   resume_spec.2 30 5000 30000 (initQState 0 30) rfl rfl (by decide)⟩

/-- C6: the lock operation sets `is_locked` and `show_results` true in a single
write; every reachable state of a question row satisfies
`is_locked = true → show_results = true`; and every host write on the row keeps
`is_locked` and `show_results` true once they are true. -/
theorem lock_sets_results_atomically :
    (∀ s : QState, (endQuestionEarly s).is_locked = true ∧
        (endQuestionEarly s).show_results = true) ∧
    (∀ (timerSeconds : ℤ) (s : QState), QReachable timerSeconds s →
        s.is_locked = true → s.show_results = true) ∧
    (∀ (timerSeconds : ℤ) (s s' : QState), QStep timerSeconds s s' →
        (s.is_locked = true → s'.is_locked = true) ∧
        (s.show_results = true → s'.show_results = true)) := by
  have hmono : ∀ (timerSeconds : ℤ) (s s' : QState), QStep timerSeconds s s' →
      (s.is_locked = true → s'.is_locked = true) ∧
      (s.show_results = true → s'.show_results = true) := by
    intro timerSeconds s s' hstep
    cases hstep with
    | pause_resume now s =>
      by_cases hp : s.is_paused = true <;>
        simp [pauseResume, hp, resumeQ, pauseQ]
    | lock s => simp [endQuestionEarly]
    | leaderboard s => simp [showLeaderboard]
  refine ⟨fun s => ⟨rfl, rfl⟩, ?_, hmono⟩
  intro timerSeconds s hreach
  induction hreach with
  | init now => intro h; simp [initQState] at h
  | step hr hs ih =>
    rename_i s₁ s₂
    intro h2
    rcases hmono _ _ _ hs with ⟨_, hres⟩
    cases hlock : s₁.is_locked with
    | true => exact hres (ih hlock)
    | false =>
      cases hs with
      | pause_resume now s =>
        exfalso
        revert h2
        by_cases hp : s₁.is_paused = true <;>
          simp [pauseResume, hp, resumeQ, pauseQ, hlock]
      | lock s => rfl
      | leaderboard s =>
        exfalso
        revert h2
        simp [showLeaderboard, hlock]

/-- C6 witness. -/
theorem lock_sets_results_atomically_witness :
    (endQuestionEarly (initQState 0 30)).show_results = true :=
  lock_sets_results_atomically.2.1 30 (endQuestionEarly (initQState 0 30))
    (QReachable.step (QReachable.init 0) (QStep.lock (initQState 0 30))) rfl

/-- Behavior of the allocation loop: if some of the `rem` candidates subject
to a check is free, the loop returns a free code; if they are all taken, it
returns the next, unchecked candidate. -/
theorem allocLoop_spec (gen : ℕ → String) (sessions : List Session) :
    ∀ rem k : ℕ,
      ((∃ j < rem, codeTaken sessions (gen (k + j)) = false) →
        codeTaken sessions (allocLoop gen sessions (k + 1) rem (gen k)) = false) ∧
      ((∀ j < rem, codeTaken sessions (gen (k + j)) = true) →
        allocLoop gen sessions (k + 1) rem (gen k) = gen (k + rem)) := by
  intro rem
  induction rem with
  | zero =>
    intro k
    refine ⟨fun h => absurd h (by simp), fun _ => by simp [allocLoop]⟩
  | succ rem ih =>
    intro k
    by_cases htaken : codeTaken sessions (gen k) = true
    · have hstep : allocLoop gen sessions (k + 1) (rem + 1) (gen k) =
          allocLoop gen sessions (k + 2) rem (gen (k + 1)) := by
        simp [allocLoop, htaken]
      constructor
      · intro hfree
        rw [hstep]
        obtain ⟨j, hj, hfj⟩ := hfree
        have hj1 : 1 ≤ j := by
          rcases Nat.eq_zero_or_pos j with h0 | h1
          · subst h0; simp at hfj; rw [htaken] at hfj; exact absurd hfj (by simp)
          · exact h1
        have := (ih (k + 1)).1
        have harg : ∃ j' < rem, codeTaken sessions (gen (k + 1 + j')) = false := by
          refine ⟨j - 1, by omega, ?_⟩
          have : k + 1 + (j - 1) = k + j := by omega
          rw [this]; exact hfj
        have hgoal := this harg
        have : k + 1 + 1 = k + 2 := by omega
        rwa [this] at hgoal
      · intro hall
        rw [hstep]
        have := (ih (k + 1)).2
        have harg : ∀ j < rem, codeTaken sessions (gen (k + 1 + j)) = true := by
          intro j hj
          have : k + 1 + j = k + (j + 1) := by omega
          rw [this]; exact hall (j + 1) (by omega)
        have hgoal := this harg
        have h2 : k + 1 + 1 = k + 2 := by omega
        have h3 : k + 1 + rem = k + (rem + 1) := by omega
        rwa [h2, h3] at hgoal
    · have hfalse : codeTaken sessions (gen k) = false := by
        revert htaken; cases codeTaken sessions (gen k) <;> simp
      have hstep : allocLoop gen sessions (k + 1) (rem + 1) (gen k) = gen k := by
        simp [allocLoop, hfalse]
      constructor
      · intro _; rw [hstep]; exact hfalse
      · intro hall
        exfalso
        have := hall 0 (by omega)
        simp at this
        rw [this] at hfalse
        exact absurd hfalse (by simp)

/-- C7 counterexample: the claim that the returned code never equals a
non-finished session's code fails when every candidate collides: with a
candidate stream that always produces "AAAAAA" and a playing session holding
that code, the allocator returns "AAAAAA". -/
theorem allocateCode_counterexample :
    allocateCode (fun _ => "AAAAAA") [⟨0, "AAAAAA", SessionStatus.playing⟩] =
      "AAAAAA" ∧
    codeTaken [⟨0, "AAAAAA", SessionStatus.playing⟩] "AAAAAA" = true := by
  constructor <;> rfl

/-- C7 (amended): the allocator checks candidates against sessions whose
status is not `finished` and retries on collision up to the fixed bound of 5;
whenever one of the five checked candidates is free, the returned code equals
no currently non-finished session's code, and if all five checks collide it
proceeds with a sixth, unchecked candidate instead of failing. -/
theorem allocateCode_spec :
    (∀ (gen : ℕ → String) (sessions : List Session),
        (∃ i < 5, codeTaken sessions (gen i) = false) →
        codeTaken sessions (allocateCode gen sessions) = false) ∧
    (∀ (gen : ℕ → String) (sessions : List Session),
        (∀ i < 5, codeTaken sessions (gen i) = true) →
        allocateCode gen sessions = gen 5) := by
  constructor
  · intro gen sessions h
    have := (allocLoop_spec gen sessions 5 0).1
    simp only [Nat.zero_add] at this
    exact this h
  · intro gen sessions h
    have := (allocLoop_spec gen sessions 5 0).2
    simp only [Nat.zero_add] at this
    exact this h

/-- C7 witness. -/
theorem allocateCode_spec_witness :
    codeTaken [⟨0, "AAAAAA", SessionStatus.playing⟩]
      (allocateCode (fun i => if i = 0 then "AAAAAA" else "BB2345")
        [⟨0, "AAAAAA", SessionStatus.playing⟩]) = false ∧
    allocateCode (fun _ => "AAAAAA") [⟨0, "AAAAAA", SessionStatus.playing⟩] =
      (fun _ : ℕ => "AAAAAA") 5 :=
  ⟨allocateCode_spec.1 (fun i => if i = 0 then "AAAAAA" else "BB2345")
      [⟨0, "AAAAAA", SessionStatus.playing⟩] ⟨1, by omega, by decide⟩,
   allocateCode_spec.2 (fun _ => "AAAAAA") [⟨0, "AAAAAA", SessionStatus.playing⟩]
      (fun _ _ => rfl)⟩

/-- C2: inserting preserves at-most-one-answer-per-triple; a second submission
for an already answered (session, player, question) triple is a no-op that
leaves the whole answer table — in particular the first answer's
`points_awarded` — unchanged, and leaves every player's cumulative score
unchanged. -/
theorem answer_at_most_once :
    (∀ (answers : List Answer) (a : Answer),
        answers.Pairwise (fun x y => sameTriple x y = false) →
        (insertAnswer answers a).Pairwise (fun x y => sameTriple x y = false)) ∧
    (∀ (answers : List Answer) (a b : Answer), b ∈ answers →
        sameTriple b a = true → insertAnswer answers a = answers) ∧
    (∀ (answers : List Answer) (a b : Answer) (sid pid : ℕ), b ∈ answers →
        sameTriple b a = true →
        playerScore (insertAnswer answers a) sid pid = playerScore answers sid pid) := by
  have hdup : ∀ (answers : List Answer) (a b : Answer), b ∈ answers →
      sameTriple b a = true → insertAnswer answers a = answers := by
    intro answers a b hb hst
    have : answers.any (fun x => sameTriple x a) = true :=
      List.any_eq_true.mpr ⟨b, hb, hst⟩
    simp [insertAnswer, this]
  refine ⟨?_, hdup, ?_⟩
  · intro answers a hpw
    by_cases h : answers.any (fun x => sameTriple x a) = true
    · simpa [insertAnswer, h] using hpw
    · have hfalse : answers.any (fun x => sameTriple x a) = false := by
        revert h; cases answers.any (fun x => sameTriple x a) <;> simp
      have hnone : ∀ x ∈ answers, sameTriple x a = false := by
        intro x hx
        have := List.any_eq_false.mp hfalse x hx
        revert this; cases sameTriple x a <;> simp
      have hins : insertAnswer answers a = answers ++ [a] := by
        simp [insertAnswer, hfalse]
      rw [hins, List.pairwise_append]
      refine ⟨hpw, by simp, ?_⟩
      intro x hx y hy
      simp at hy
      subst hy
      exact hnone x hx
  · intro answers a b sid pid hb hst
    rw [hdup answers a b hb hst]

/-- C2 witness. -/
theorem answer_at_most_once_witness :
    insertAnswer [⟨1, 2, 3, 0, true, 0, 1500⟩] ⟨1, 2, 3, 1, false, 5, 0⟩ =
      [⟨1, 2, 3, 0, true, 0, 1500⟩] :=
  answer_at_most_once.2.1 [⟨1, 2, 3, 0, true, 0, 1500⟩] ⟨1, 2, 3, 1, false, 5, 0⟩
    ⟨1, 2, 3, 0, true, 0, 1500⟩ (List.mem_singleton.mpr rfl) rfl

/-- C3: when every `sessions` row carrying the referenced session id has
status `playing` or `finished` (with the primary key there is at most one
such row), the join insert fails the "Anyone can join session" policy check,
so `handleJoin` returns `none`: no Player row is created and the store is
unchanged.  Moreover the by-code lookup can only ever produce a non-finished
session. -/
theorem join_rejected_outside_lobby :
    (∀ (st : Store) (s : Session) (name color : String) (nid : ℕ),
        (∀ s' ∈ st.sessions, s'.id = s.id →
          s'.status = SessionStatus.playing ∨ s'.status = SessionStatus.finished) →
        handleJoin st s name color nid = none) ∧
    (∀ (st : Store) (code : String) (s : Session),
        findSession st code = some s → s.status ≠ SessionStatus.finished) := by
  constructor
  · intro st s name color nid h
    have hguard : joinAllowed st s.id = false := by
      rw [joinAllowed]
      rw [List.any_eq_false]
      intro s' hs'
      simp only [Bool.and_eq_true, beq_iff_eq, not_and]
      intro hid
      rcases h s' hs' hid with hst | hst <;> rw [hst] <;> simp
    simp [handleJoin, hguard]
  · intro st code s hfind
    have hp := List.find?_some hfind
    simp only [Bool.and_eq_true, Bool.not_eq_true'] at hp
    intro hst
    rw [hst] at hp
    simp at hp

/-- C3 witness. -/
theorem join_rejected_outside_lobby_witness :
    handleJoin ⟨[⟨0, "AB23CD", SessionStatus.playing⟩], []⟩
      ⟨0, "AB23CD", SessionStatus.playing⟩ "Alex" "#f00" 7 = none ∧
    ¬ (⟨9, "CD23EF", SessionStatus.lobby⟩ : Session).status = SessionStatus.finished :=
  ⟨join_rejected_outside_lobby.1 ⟨[⟨0, "AB23CD", SessionStatus.playing⟩], []⟩
      ⟨0, "AB23CD", SessionStatus.playing⟩ "Alex" "#f00" 7 (by decide),
   join_rejected_outside_lobby.2
      ⟨[⟨9, "CD23EF", SessionStatus.lobby⟩], []⟩ "cd23ef"
      ⟨9, "CD23EF", SessionStatus.lobby⟩ (by decide)⟩

theorem charToDigit_digitChar : ∀ d : ℕ, d < 10 → charToDigit (Nat.digitChar d) = d := by
  decide

theorem toDigitsCore_eq_digits :
    ∀ (f n : ℕ) (ds : List Char), n < f →
      Nat.toDigitsCore 10 f n ds =
        (if n = 0 then ['0'] else ((Nat.digits 10 n).map Nat.digitChar).reverse) ++ ds := by
  intro f
  induction f with
  | zero => intro n ds h; omega
  | succ f ih =>
    intro n ds h
    rcases Nat.eq_zero_or_pos n with h0 | hpos
    · subst h0
      simp [Nat.toDigitsCore]
      rfl
    · have hne : n ≠ 0 := by omega
      have hdig : Nat.digits 10 n = n % 10 :: Nat.digits 10 (n / 10) :=
        Nat.digits_def' (by norm_num) hpos
      by_cases hdiv : n / 10 = 0
      · have hstep : Nat.toDigitsCore 10 (f + 1) n ds = Nat.digitChar (n % 10) :: ds := by
          simp [Nat.toDigitsCore, hdiv]
        rw [hstep, if_neg hne, hdig, hdiv]
        simp
      · have hlt : n / 10 < f := by
          have h1 : n / 10 < n := Nat.div_lt_self hpos (by norm_num)
          omega
        have hstep : Nat.toDigitsCore 10 (f + 1) n ds =
            Nat.toDigitsCore 10 f (n / 10) (Nat.digitChar (n % 10) :: ds) := by
          simp [Nat.toDigitsCore, hdiv]
        rw [hstep, ih (n / 10) _ hlt, if_neg hdiv, if_neg hne, hdig]
        simp

theorem repr_eq_digits (n : ℕ) :
    Nat.repr n =
      List.asString
        (if n = 0 then ['0'] else ((Nat.digits 10 n).map Nat.digitChar).reverse) := by
  show (Nat.toDigits 10 n).asString = _
  rw [Nat.toDigits, toDigitsCore_eq_digits (n + 1) n [] (by omega)]
  simp

theorem digitChar_list_injective (l₁ l₂ : List ℕ)
    (h1 : ∀ d ∈ l₁, d < 10) (h2 : ∀ d ∈ l₂, d < 10)
    (h : l₁.map Nat.digitChar = l₂.map Nat.digitChar) : l₁ = l₂ := by
  have key : ∀ l : List ℕ, (∀ d ∈ l, d < 10) →
      (l.map Nat.digitChar).map charToDigit = l := by
    intro l hl
    rw [List.map_map]
    have : l.map (charToDigit ∘ Nat.digitChar) = l.map id :=
      List.map_congr_left fun d hd => charToDigit_digitChar d (hl d hd)
    rw [this, List.map_id]
  rw [← key l₁ h1, ← key l₂ h2, h]

theorem natRepr_injective : Function.Injective Nat.repr := by
  intro m n h
  rw [repr_eq_digits, repr_eq_digits] at h
  have hdata :
      (if m = 0 then ['0'] else ((Nat.digits 10 m).map Nat.digitChar).reverse) =
      (if n = 0 then ['0'] else ((Nat.digits 10 n).map Nat.digitChar).reverse) := by
    have := congrArg String.data h
    simpa [List.asString] using this
  have hzero : ∀ p : ℕ, p ≠ 0 →
      ((Nat.digits 10 p).map Nat.digitChar).reverse = ['0'] → False := by
    intro p hp hrev
    have hmap : (Nat.digits 10 p).map Nat.digitChar = ['0'] := by
      have := congrArg List.reverse hrev
      simpa using this
    have h0 : ([0] : List ℕ).map Nat.digitChar = ['0'] := rfl
    have hdigs : Nat.digits 10 p = [0] := by
      apply digitChar_list_injective
      · exact fun d hd => Nat.digits_lt_base (by norm_num) hd
      · intro d hd; simp at hd; omega
      · rw [hmap, h0]
    have := Nat.ofDigits_digits 10 p
    rw [hdigs] at this
    simp [Nat.ofDigits] at this
    omega
  by_cases hm : m = 0 <;> by_cases hn : n = 0
  · omega
  · rw [if_pos hm, if_neg hn] at hdata
    exact (hzero n hn hdata.symm).elim
  · rw [if_neg hm, if_pos hn] at hdata
    exact (hzero m hm hdata).elim
  · rw [if_neg hm, if_neg hn] at hdata
    have hmap : (Nat.digits 10 m).map Nat.digitChar = (Nat.digits 10 n).map Nat.digitChar := by
      have := congrArg List.reverse hdata
      simpa using this
    have hdigs : Nat.digits 10 m = Nat.digits 10 n :=
      digitChar_list_injective _ _
        (fun d hd => Nat.digits_lt_base (by norm_num) hd)
        (fun d hd => Nat.digits_lt_base (by norm_num) hd) hmap
    have h1 := Nat.ofDigits_digits 10 m
    have h2 := Nat.ofDigits_digits 10 n
    rw [← h1, ← h2, hdigs]

theorem append_natRepr_injective (base : String) :
    Function.Injective fun c : ℕ => base ++ Nat.repr c := by
  intro c₁ c₂ h
  apply natRepr_injective
  have hd := congrArg String.data h
  simp only [String.data_append] at hd
  apply String.ext
  exact List.append_cancel_left hd

theorem exists_free_counter (names : List String) (base : String) (start : ℕ) :
    ∃ k ≤ names.length, (base ++ Nat.repr (start + k)) ∉ names := by
  by_contra hcon
  push_neg at hcon
  have hsub : ∀ k ∈ Finset.range (names.length + 1),
      (fun k => base ++ Nat.repr (start + k)) k ∈ names.toFinset := by
    intro k hk
    rw [List.mem_toFinset]
    exact hcon k (Nat.lt_succ_iff.mp (Finset.mem_range.mp hk))
  have hinj : Set.InjOn (fun k => base ++ Nat.repr (start + k))
      (Finset.range (names.length + 1)) := by
    intro a _ b _ hab
    have := append_natRepr_injective base hab
    omega
  have hcard := Finset.card_le_card_of_injOn _ hsub hinj
  rw [Finset.card_range] at hcard
  have := names.toFinset_card_le
  omega

theorem findCounter_spec (names : List String) (base : String) :
    ∀ fuel c : ℕ, (∃ k < fuel, base ++ Nat.repr (c + k) ∉ names) →
      (base ++ Nat.repr (findCounter names base fuel c)) ∉ names ∧
      c ≤ findCounter names base fuel c ∧
      ∀ j, c ≤ j → j < findCounter names base fuel c → base ++ Nat.repr j ∈ names := by
  intro fuel
  induction fuel with
  | zero =>
    intro c h
    obtain ⟨k, hk, _⟩ := h
    omega
  | succ fuel ih =>
    intro c h
    by_cases hmem : base ++ Nat.repr c ∈ names
    · have hrw : findCounter names base (fuel + 1) c = findCounter names base fuel (c + 1) := by
        simp [findCounter, hmem]
      have harg : ∃ k < fuel, base ++ Nat.repr (c + 1 + k) ∉ names := by
        obtain ⟨k, hk, hfree⟩ := h
        have hk0 : k ≠ 0 := by
          intro h0
          subst h0
          simp at hfree
          exact hfree hmem
        refine ⟨k - 1, by omega, ?_⟩
        have harith : c + 1 + (k - 1) = c + k := by omega
        rw [harith]
        exact hfree
      obtain ⟨hfree, hle, hmin⟩ := ih (c + 1) harg
      rw [hrw]
      refine ⟨hfree, by omega, ?_⟩
      intro j hj1 hj2
      rcases Nat.eq_or_lt_of_le hj1 with heq | hlt
      · rw [← heq]; exact hmem
      · exact hmin j hlt hj2
    · have hrw : findCounter names base (fuel + 1) c = c := by
        simp [findCounter, hmem]
      rw [hrw]
      exact ⟨hmem, le_refl c, fun j h1 h2 => absurd (lt_of_le_of_lt h1 h2) (lt_irrefl c)⟩

/-- C8: when the requested name collides case-insensitively with an existing
non-removed player's name, the assigned name is the requested name with the
smallest integer ≥ 2 appended (checked sequentially) whose case-insensitive
form is unique; in particular joining as "Alex" when "Alex" and "Alex2"
already exist yields "Alex3". -/
theorem assignName_smallest_suffix :
    (∀ (existingNames : List String) (requested : String),
        lowerStr requested ∈ existingNames.map lowerStr →
        ∃ c, 2 ≤ c ∧
          assignName existingNames requested = requested ++ Nat.repr c ∧
          (lowerStr requested ++ Nat.repr c) ∉ existingNames.map lowerStr ∧
          ∀ j, 2 ≤ j → j < c →
            (lowerStr requested ++ Nat.repr j) ∈ existingNames.map lowerStr) ∧
    assignName ["Alex", "Alex2"] "Alex" = "Alex3" := by
  constructor
  · intro existingNames requested hmem
    have hex : ∃ k < (existingNames.map lowerStr).length + 1,
        lowerStr requested ++ Nat.repr (2 + k) ∉ existingNames.map lowerStr := by
      obtain ⟨k, hk, hfree⟩ :=
        exists_free_counter (existingNames.map lowerStr) (lowerStr requested) 2
      exact ⟨k, by omega, hfree⟩
    obtain ⟨hfree, hle, hmin⟩ :=
      findCounter_spec (existingNames.map lowerStr) (lowerStr requested)
        ((existingNames.map lowerStr).length + 1) 2 hex
    refine ⟨findCounter (existingNames.map lowerStr) (lowerStr requested)
        ((existingNames.map lowerStr).length + 1) 2, hle, ?_, hfree, hmin⟩
    simp [assignName, hmem]
  · decide

/-- C8 witness. -/
theorem assignName_smallest_suffix_witness :
    ∃ c, 2 ≤ c ∧
      assignName ["Alex", "Alex2"] "Alex" = "Alex" ++ Nat.repr c ∧
      (lowerStr "Alex" ++ Nat.repr c) ∉ (["Alex", "Alex2"].map lowerStr) ∧
      ∀ j, 2 ≤ j → j < c →
        (lowerStr "Alex" ++ Nat.repr j) ∈ (["Alex", "Alex2"].map lowerStr) :=
  assignName_smallest_suffix.1 ["Alex", "Alex2"] "Alex" (by decide)

end HeyHost
